import Mathlib

/-!
Shallow embedding of the weather-app fetcher (src/main.rs).

Conventions of the embedding:
* Rust `f64` temperature values are embedded as exact rationals `ℚ`
  (`to_celsius` only performs field arithmetic, never rounding-sensitive
  comparisons beyond `min`/`max`).
* Rust `i64`/`i32` time and offset values are embedded as unbounded `Int`;
  `i32::abs` is `Int.natAbs`.
* `chrono::NaiveDate` is represented by its day number since the Unix epoch
  (an `Int`): `DateTime::from_timestamp(dt).with_timezone(&offset).date_naive()`
  is the civil date of day number `(dt + offset).fdiv 86400`, and the `Ord`
  on `NaiveDate` agrees with the order of day numbers.  Rendering a
  `NaiveDate` with `%d-%m-%Y` is `format_date` below (Hinnant's civil
  calendar algorithm, the one chrono implements).
* Rust `String` is Lean `String`; `char::to_uppercase` is embedded as the
  single-character uppercase map (`Char.toUpper`), faithful on ASCII input.
* `HashMap` iteration order is unspecified in Rust; the embedding fixes the
  deterministic first-insertion order (`upsert` / `bump` association lists).
  Every property proved below about the grouped data is insensitive to that
  choice except the dominant-condition tie-break, which the spec itself
  declares unspecified.
* The `futures` combinator `buffer_unordered(8)` yields results in
  completion order; the completion order is an explicit parameter `sched`
  (a permutation of the task indices, constrained by the window bound in
  `valid_completion`), and `permute` applies it.
* Fallible fetches are `Except String`; `collect::<Result<Vec<_>, _>>()` is
  `collect_results`.
-/

/- ============================ Output JSON ============================ -/

structure CurrentOut where
  city : String
  time_local : String
  utc_offset : String
  temp_c : ℚ
  humidity_pct : Int
  condition : String
deriving DecidableEq, Repr

structure ForecastDayOut where
  date : String
  min_c : ℚ
  max_c : ℚ
  condition : String
deriving DecidableEq, Repr

structure CityForecastOut where
  city : String
  days : List ForecastDayOut
deriving DecidableEq, Repr

structure Output where
  generated_at_utc : String
  current : List CurrentOut
  forecasts : List CityForecastOut
deriving DecidableEq, Repr

/- ============================ OpenWeather types ============================ -/

structure Main where
  temp : ℚ
  humidity : Int
deriving DecidableEq, Repr

structure Weather where
  description : String
deriving DecidableEq, Repr

structure CurrentResp where
  dt : Int
  timezone : Int
  main : Main
  weather : List Weather
deriving DecidableEq, Repr

structure City where
  timezone : Int
deriving DecidableEq, Repr

structure ForecastEntry where
  dt : Int
  main : Main
  weather : List Weather
deriving DecidableEq, Repr

structure ForecastResp where
  city : City
  list : List ForecastEntry
deriving DecidableEq, Repr

/- ============================ Utils ============================ -/

/-- `str::split(sep)` on a character list: the list of pieces between
occurrences of `sep` (never empty; `[[]]` for the empty input, matching
Rust's `"".split(',')` yielding one empty piece). -/
def split_list (sep : Char) : List Char → List (List Char)
  | [] => [[]]
  | c :: cs =>
    if c = sep then [] :: split_list sep cs
    else
      match split_list sep cs with
      | [] => [[c]]
      | p :: ps => (c :: p) :: ps

/-- `str::trim()`: drop leading and trailing whitespace characters. -/
def trim_chars (l : List Char) : List Char :=
  ((l.dropWhile Char.isWhitespace).reverse.dropWhile Char.isWhitespace).reverse

/-- `fn label_from_query(city: &str) -> &str`:
`city.split(',').next().unwrap_or(city).trim()`. -/
def label_from_query (city : String) : String :=
  String.mk (trim_chars ((split_list ',' city.data).headD city.data))

/-- `char::to_uppercase` embedded as the single-character simple uppercase
map (exact for ASCII; multi-character Unicode expansions not modelled). -/
def char_to_uppercase (c : Char) : List Char :=
  [c.toUpper]

/-- `fn title(s: &str) -> String`: uppercase the first character, keep the
rest unchanged. -/
def title (s : String) : String :=
  match s.data with
  | [] => ""
  | c :: cs => String.mk (char_to_uppercase c ++ cs)

/-- `weather.get(0).map(|w| title(&w.description)).unwrap_or_else(|| "Unknown")`. -/
def cond_label (weather : List Weather) : String :=
  ((weather.head?).map (fun w => title w.description)).getD "Unknown"

/-- Zero-pad a number below 100 to two digits (the `{mins:02}` format). -/
def pad2 (n : ℕ) : String :=
  if n < 10 then "0" ++ toString n else toString n

/-- `fn utc_offset_label(secs: i32) -> String`. -/
def utc_offset_label (secs : Int) : String :=
  let sign := if 0 ≤ secs then "+" else "-"
  let abs := secs.natAbs
  let hours := abs / 3600
  let mins := abs % 3600 / 60
  if mins = 0 then "UTC" ++ sign ++ toString hours
  else "UTC" ++ sign ++ toString hours ++ ":" ++ pad2 mins

/-- `fn to_celsius(value: f64, units: &str) -> f64` (the Rust `match` on the
unit string, with the `_` arm as the final `else`). -/
def to_celsius (value : ℚ) (units : String) : ℚ :=
  if units = "metric" then value
  else if units = "imperial" then (value - 32) * 5 / 9
  else if units = "standard" then value - 273.15
  else value

/- ============================ Calendar ============================ -/

/-- Civil date (year, month, day) of a day number counted from 1970-01-01
(Hinnant's `civil_from_days`, the algorithm chrono uses for `NaiveDate`). -/
def civil_from_days (z : Int) : Int × ℕ × ℕ :=
  let z' := z + 719468
  let era : Int := z'.fdiv 146097
  let doe : ℕ := (z' - era * 146097).toNat
  let yoe : ℕ := (doe - doe / 1460 + doe / 36524 - doe / 146096) / 365
  let doy : ℕ := doe - (365 * yoe + yoe / 4 - yoe / 100)
  let mp : ℕ := (5 * doy + 2) / 153
  let d : ℕ := doy - (153 * mp + 2) / 5 + 1
  let m : ℕ := if mp < 10 then mp + 3 else mp - 9
  let y : Int := (yoe : Int) + era * 400 + (if m ≤ 2 then 1 else 0)
  (y, m, d)

/-- Zero-pad a year to four digits (chrono's `%Y`). -/
def pad4 (y : Int) : String :=
  let n := y.natAbs
  let s :=
    if n < 10 then "000" ++ toString n
    else if n < 100 then "00" ++ toString n
    else if n < 1000 then "0" ++ toString n
    else toString n
  if y < 0 then "-" ++ s else s

/-- `day.format("%d-%m-%Y")` for a day number since the epoch. -/
def format_date (z : Int) : String :=
  let c := civil_from_days z
  pad2 c.2.2 ++ "-" ++ pad2 c.2.1 ++ "-" ++ pad4 c.1

/-- `when_local.format("%d-%m-%Y %H:%M")` for a local timestamp in seconds. -/
def format_datetime (t : Int) : String :=
  let s := (t.emod 86400).toNat
  format_date (t.fdiv 86400) ++ " " ++ pad2 (s / 3600) ++ ":" ++ pad2 (s % 3600 / 60)

/- ============================ Offset resolution ============================ -/

/-- `chrono::FixedOffset::east_opt(secs)`: defined exactly when
`-86400 < secs < 86400`. -/
def fixed_offset_east (secs : Int) : Option Int :=
  if -86400 < secs ∧ secs < 86400 then some secs else none

/-- `FixedOffset::east_opt(tz).unwrap_or_else(|| FixedOffset::east_opt(0).unwrap())`. -/
def resolve_offset (tz : Int) : Int :=
  (fixed_offset_east tz).getD 0

/-- Local calendar date (as a day number) of the UTC instant `dt` seen from
a fixed `offset`: `date_naive()` of the shifted timestamp. -/
def day_key (dt offset : Int) : Int :=
  (dt + offset).fdiv 86400

/- ============================ Daily aggregation ============================ -/

/-- One grouped forecast sample: Celsius temperature and condition label. -/
abbrev Sample := ℚ × String

/-- `by_day.entry(day_key).or_default().push(v)` on an association list kept
in first-insertion key order (the embedding's stand-in for `HashMap`). -/
def upsert (k : Int) (v : Sample) : List (Int × List Sample) → List (Int × List Sample)
  | [] => [(k, [v])]
  | (k', vs) :: rest =>
    if k = k' then (k', vs ++ [v]) :: rest else (k', vs) :: upsert k v rest

/-- The `(temp_c, cond)` pair pushed for one forecast entry. -/
def entry_sample (units : String) (e : ForecastEntry) : Sample :=
  (to_celsius e.main.temp units, cond_label e.weather)

/-- The grouping loop `for entry in fc.list { by_day.entry(..).push(..) }`. -/
def group_entries (offset : Int) (units : String) (entries : List ForecastEntry) :
    List (Int × List Sample) :=
  entries.foldl (fun acc e => upsert (day_key e.dt offset) (entry_sample units e) acc) []

/-- Sort key order for `days.sort_by_key(|(k, _)| *k)`. -/
def day_le (a b : Int × List Sample) : Prop :=
  a.1 ≤ b.1

instance : DecidableRel day_le := fun a b => inferInstanceAs (Decidable (a.1 ≤ b.1))

instance day_le_total : IsTotal (Int × List Sample) day_le :=
  ⟨fun a b => le_total a.1 b.1⟩

instance day_le_trans : IsTrans (Int × List Sample) day_le :=
  ⟨fun _ _ _ h h' => le_trans h h'⟩

/-- `days.sort_by_key(|(k, _)| *k)` (keys are distinct, so any stable sort
produces this unique sorted arrangement). -/
def days_sorted (offset : Int) (units : String) (entries : List ForecastEntry) :
    List (Int × List Sample) :=
  List.insertionSort day_le (group_entries offset units entries)

/-- The min fold `samples.iter().fold((INFINITY, -), |(mn, _), (t, _)| mn.min(t))`;
seeding at `+∞` over a nonempty list equals seeding at the first element
(groups are never empty, see `group_entries_snd_ne_nil`). -/
def min_temp : List Sample → ℚ
  | [] => 0
  | (t, _) :: rest => rest.foldl (fun mn p => min mn p.1) t

/-- The max fold, seeded at `-∞`, embedded like `min_temp`. -/
def max_temp : List Sample → ℚ
  | [] => 0
  | (t, _) :: rest => rest.foldl (fun mx p => max mx p.1) t

/-- `*counts.entry(c).or_insert(0) += 1` on an association list kept in
first-insertion key order. -/
def bump (c : String) : List (String × ℕ) → List (String × ℕ)
  | [] => [(c, 1)]
  | (c', n) :: rest =>
    if c = c' then (c', n + 1) :: rest else (c', n) :: bump c rest

/-- The counting loop `for (_, c) in &samples { .. }`. -/
def counts_of (samples : List Sample) : List (String × ℕ) :=
  samples.foldl (fun acc p => bump p.2 acc) []

/-- `Iterator::max_by_key(|(_, n)| *n)`: on ties the later element wins. -/
def max_sel (p : String × ℕ) (l : List (String × ℕ)) : String × ℕ :=
  l.foldl (fun best q => if best.2 ≤ q.2 then q else best) p

/-- `counts.into_iter().max_by_key(..).map(|(c, _)| c).unwrap_or_else("Unknown")`. -/
def dominant (samples : List Sample) : String :=
  match counts_of samples with
  | [] => "Unknown"
  | p :: rest => (max_sel p rest).1

/-- The body of the per-day output loop. -/
def summarize_day (day : Int) (samples : List Sample) : ForecastDayOut :=
  { date := format_date day
  , min_c := min_temp samples
  , max_c := max_temp samples
  , condition := dominant samples }

/-- The pure tail of `fetch_and_summarize_forecast`, from the parsed
`ForecastResp` to the day summaries. -/
def summarize_forecast (units : String) (fc : ForecastResp) : List ForecastDayOut :=
  let offset := resolve_offset fc.city.timezone
  ((days_sorted offset units fc.list).take 5).map (fun p => summarize_day p.1 p.2)

/-- `fn build_current_out(label, cur, units) -> CurrentOut`. -/
def build_current_out (label : String) (cur : CurrentResp) (units : String) : CurrentOut :=
  let offset := resolve_offset cur.timezone
  { city := label
  , time_local := format_datetime (cur.dt + offset)
  , utc_offset := utc_offset_label cur.timezone
  , temp_c := to_celsius cur.main.temp units
  , humidity_pct := cur.main.humidity
  , condition := cond_label cur.weather }

/- ============================ Orchestrator ============================ -/

/-- Per-city work of the "current" pass: fetch, then build the output with
the label computed from the query (`label_from_query(&city)`). -/
def current_task (units : String) (fetch : String → Except String CurrentResp)
    (city : String) : Except String CurrentOut :=
  (fetch city).map (fun cur => build_current_out (label_from_query city) cur units)

/-- Per-city work of the "forecast" pass. -/
def forecast_task (units : String) (fetch : String → Except String ForecastResp)
    (city : String) : Except String CityForecastOut :=
  (fetch city).map (fun fc =>
    { city := label_from_query city, days := summarize_forecast units fc })

/-- Arrange the per-task results in the completion order `sched`
(`buffer_unordered` yields in completion order; `collect::<Vec<_>>` then
holds them in that order). -/
def permute (l : List α) (sched : List ℕ) : List α :=
  sched.filterMap (fun i => l[i]?)

/-- `sched` is a completion order that the window-`w` scheduler can
realize: a permutation of the task indices in which the `k`-th completed
task is among the first `k + w` submitted. -/
def valid_completion (w n : ℕ) (sched : List ℕ) : Prop :=
  sched.Perm (List.range n) ∧ ∀ k (h : k < sched.length), sched.get ⟨k, h⟩ < k + w

instance except_deq {ε α : Type} [DecidableEq ε] [DecidableEq α] :
    DecidableEq (Except ε α) := fun x y =>
  match x, y with
  | .ok a, .ok b =>
    if h : a = b then isTrue (by rw [h]) else isFalse (by simp [h])
  | .error e, .error f =>
    if h : e = f then isTrue (by rw [h]) else isFalse (by simp [h])
  | .ok _, .error _ => isFalse (by simp)
  | .error _, .ok _ => isFalse (by simp)

instance valid_completion_dec (w n : ℕ) (s : List ℕ) :
    Decidable (valid_completion w n s) :=
  inferInstanceAs
    (Decidable (s.Perm (List.range n) ∧ ∀ k (h : k < s.length), s.get ⟨k, h⟩ < k + w))

/-- `.into_iter().collect::<Result<Vec<_>, _>>()`: first error wins. -/
def collect_results : List (Except ε α) → Except ε (List α)
  | [] => .ok []
  | .error e :: _ => .error e
  | .ok a :: xs => (collect_results xs).map (a :: ·)

/-- The orchestration in `main` after config loading: the two concurrent
passes (each with its own completion order) followed by `Output` assembly.
`now` stands for the formatted `Utc::now()` value. -/
def run_orchestrator (cities : List String) (units : String)
    (fetchCur : String → Except String CurrentResp)
    (fetchFc : String → Except String ForecastResp)
    (schedCur schedFc : List ℕ) (now : String) : Except String Output :=
  match collect_results (permute (cities.map (current_task units fetchCur)) schedCur) with
  | .error e => .error e
  | .ok current =>
    match collect_results (permute (cities.map (forecast_task units fetchFc)) schedFc) with
    | .error e => .error e
    | .ok forecasts =>
      .ok { generated_at_utc := now, current := current, forecasts := forecasts }

/- ============================ Spec-side definitions ============================ -/

/-- Spec wording for `offsetLabel`: sign `+` for zero or positive offsets,
hour count, and a zero-padded minutes component omitted when zero. -/
def offset_label_spec (secs : Int) : String :=
  let sign := if 0 ≤ secs then "+" else "-"
  let hours := secs.natAbs / 3600
  let mins := secs.natAbs / 60 % 60
  if mins = 0 then "UTC" ++ sign ++ toString hours
  else "UTC" ++ sign ++ toString hours ++ ":" ++ pad2 mins

/-- Spec wording for the display label: the substring of the query before
the first comma (the whole string when there is no comma), trimmed of
leading and trailing whitespace. -/
def before_comma_trimmed (q : String) : String :=
  String.mk (trim_chars (q.data.takeWhile (fun c => c ≠ ',')))

/-- The number of distinct local calendar dates among the forecast entries,
resolved at the given fixed offset. -/
def distinct_days (offset : Int) (entries : List ForecastEntry) : ℕ :=
  ((entries.map (fun e => day_key e.dt offset)).toFinset).card

/-- The day numbers of the emitted day summaries, in emission order. -/
def out_day_keys (units : String) (tz : Int) (entries : List ForecastEntry) : List Int :=
  ((days_sorted (resolve_offset tz) units entries).take 5).map Prod.fst

/-- Occurrence count of a condition label among a day's samples. -/
def occ (samples : List Sample) (c : String) : ℕ :=
  samples.countP (fun p => p.2 == c)

/- ============================ Proof-side helper functions ============================ -/

/-- The count an association list assigns to a key (0 when absent). -/
def lookup_count (c : String) : List (String × ℕ) → ℕ
  | [] => 0
  | (c', n) :: rest => if c = c' then n else lookup_count c rest

/-- Append a key to a key list unless already present: the shape of the key
set of `upsert`/`bump` association lists. -/
def addKey {α : Type} [DecidableEq α] (ks : List α) (k : α) : List α :=
  if k ∈ ks then ks else ks ++ [k]

/- ============================ Concrete fixtures ============================ -/

/-- A fixed successfully-parsed current-conditions response. -/
def demo_cur : CurrentResp :=
  ⟨0, 0, ⟨0, 0⟩, []⟩

/-- A fixed successfully-parsed forecast response. -/
def demo_fc : ForecastResp :=
  ⟨⟨0⟩, []⟩

/-- A fetch map where the city "B" fails and every other city succeeds. -/
def demo_fetch_cur_fail (c : String) : Except String CurrentResp :=
  if c = "B" then .error "boom" else .ok demo_cur

/-- The output of a one-city all-success run. -/
def demo_out : Output :=
  { generated_at_utc := "t"
  , current := [build_current_out (label_from_query "A") demo_cur "metric"]
  , forecasts := [{ city := label_from_query "A", days := summarize_forecast "metric" demo_fc }] }

/- ============================ Theorems ============================ -/

/-- C5: `to_celsius` is the identity for `"metric"`, `(v - 32) * 5 / 9` for
`"imperial"`, `v - 273.15` for `"standard"`, and the identity (never an
error) for every other unit string. -/
theorem toCelsius_unit_formulas :
    ∀ v : ℚ,
      to_celsius v "metric" = v
      ∧ to_celsius v "imperial" = (v - 32) * 5 / 9
      ∧ to_celsius v "standard" = v - 273.15
      ∧ ∀ units, units ≠ "metric" → units ≠ "imperial" → units ≠ "standard" →
          to_celsius v units = v := by
  intro v
  refine ⟨rfl, rfl, rfl, fun units h1 h2 h3 => ?_⟩
  simp [to_celsius, h1, h2, h3]

/-- Witness for C5 at `v = 100` and the unrecognized unit string `"kelvin"`. -/
theorem toCelsius_unit_formulas_witness :
    (("kelvin" : String) ≠ "metric" ∧ ("kelvin" : String) ≠ "imperial"
      ∧ ("kelvin" : String) ≠ "standard")
    ∧ to_celsius 100 "kelvin" = 100 :=
  ⟨⟨by decide, by decide, by decide⟩,
   (toCelsius_unit_formulas 100).2.2.2 "kelvin" (by decide) (by decide) (by decide)⟩

/-- C6: `utc_offset_label` agrees with the spec's `UTC±H[:MM]` format
(zero-padded minutes, omitted when zero, `+` for zero or positive offsets),
and in particular maps 0, 7200 and -16200 as documented. -/
theorem offset_label_formats :
    (∀ secs : Int, utc_offset_label secs = offset_label_spec secs)
    ∧ utc_offset_label 0 = "UTC+0"
    ∧ utc_offset_label 7200 = "UTC+2"
    ∧ utc_offset_label (-16200) = "UTC-4:30" := by
  refine ⟨fun secs => ?_, by decide, by decide, by decide⟩
  have h : secs.natAbs % 3600 / 60 = secs.natAbs / 60 % 60 := by
    have h60 := Nat.mod_mul_right_div_self secs.natAbs 60 60
    norm_num at h60
    exact h60
  simp only [utc_offset_label, offset_label_spec, h]

/-- C7: `title` uppercases exactly the first character, keeps the rest of
the string unchanged, maps `""` to `""`; an empty condition list is labeled
`"Unknown"`, a nonempty one by `title` of its first description. -/
theorem title_capitalizes_first_only :
    (∀ s : String, (title s).data.head? = s.data.head?.map Char.toUpper
      ∧ (title s).data.tail = s.data.tail)
    ∧ title "" = ""
    ∧ title ("light rain") = "Light rain"
    ∧ cond_label [] = "Unknown"
    ∧ ∀ w ws, cond_label (⟨w⟩ :: ws) = title w := by
  refine ⟨fun s => ?_, rfl, by decide, rfl, fun w ws => rfl⟩
  obtain ⟨l⟩ := s
  cases l with
  | nil => exact ⟨rfl, rfl⟩
  | cons c cs => exact ⟨rfl, rfl⟩

/-- The first `split` piece is the prefix up to the separator. -/
theorem split_list_head (sep : Char) :
    ∀ l : List Char, ∃ ps, split_list sep l = l.takeWhile (fun c => c ≠ sep) :: ps := by
  intro l
  induction l with
  | nil => exact ⟨[], rfl⟩
  | cons c cs ih =>
    by_cases h : c = sep
    · subst h
      refine ⟨split_list c cs, ?_⟩
      simp [split_list, List.takeWhile_cons]
    · obtain ⟨ps, hps⟩ := ih
      refine ⟨ps, ?_⟩
      simp [split_list, h, hps, List.takeWhile_cons]

/-- `label_from_query` computes the spec's display label. -/
theorem label_from_query_eq (q : String) :
    label_from_query q = before_comma_trimmed q := by
  obtain ⟨ps, h⟩ := split_list_head ',' q.data
  unfold label_from_query before_comma_trimmed
  rw [h]
  rfl

/-- C8: the display label attached to a location's current entry and to its
forecast entry is the query's substring before the first comma, trimmed of
whitespace. -/
theorem display_label_before_comma :
    (∀ q : String, label_from_query q = before_comma_trimmed q)
    ∧ (∀ q cur units,
        (build_current_out (label_from_query q) cur units).city = before_comma_trimmed q)
    ∧ (∀ q units fc,
        ({ city := label_from_query q, days := summarize_forecast units fc } :
          CityForecastOut).city = before_comma_trimmed q)
    ∧ label_from_query ("Paris,FR") = "Paris"
    ∧ label_from_query ("Tokyo") = "Tokyo"
    ∧ label_from_query (" Lyon , FR") = "Lyon" := by
  refine ⟨label_from_query_eq, fun q cur units => label_from_query_eq q,
    fun q units fc => label_from_query_eq q, by decide, by decide, by decide⟩

/-- C10: an out-of-range provider UTC offset (at or beyond ±86400 s) is
silently replaced by offset 0 when resolving local dates and times — for
the current report and for all forecast samples — while the UTC-offset
label is still formatted from the raw reported value. -/
theorem out_of_range_offset_fallback :
    ∀ tz : Int, (tz ≤ -86400 ∨ 86400 ≤ tz) →
      resolve_offset tz = 0
      ∧ (∀ lab dt m w units,
          build_current_out lab ⟨dt, tz, m, w⟩ units
            = { build_current_out lab ⟨dt, 0, m, w⟩ units with
                  utc_offset := utc_offset_label tz })
      ∧ (∀ units entries,
          summarize_forecast units ⟨⟨tz⟩, entries⟩ = summarize_forecast units ⟨⟨0⟩, entries⟩) := by
  intro tz htz
  have h0 : resolve_offset tz = 0 := by
    unfold resolve_offset fixed_offset_east
    rw [if_neg (by omega)]
    rfl
  have h0' : resolve_offset 0 = 0 := rfl
  refine ⟨h0, fun lab dt m w units => ?_, fun units entries => ?_⟩
  · simp only [build_current_out, h0, h0']
  · simp only [summarize_forecast, h0, h0']

/-- Witness for C10 at the out-of-range offset 90000. -/
theorem out_of_range_offset_fallback_witness :
    ((90000 : Int) ≤ -86400 ∨ (86400 : Int) ≤ 90000)
    ∧ resolve_offset 90000 = 0
    ∧ build_current_out "X" ⟨0, 90000, ⟨0, 0⟩, []⟩ "metric"
        = { build_current_out "X" ⟨0, 0, ⟨0, 0⟩, []⟩ "metric" with
              utc_offset := utc_offset_label 90000 }
    ∧ summarize_forecast "metric" ⟨⟨90000⟩, []⟩ = summarize_forecast "metric" ⟨⟨0⟩, []⟩ :=
  ⟨Or.inr (by decide),
   (out_of_range_offset_fallback 90000 (Or.inr (by decide))).1,
   (out_of_range_offset_fallback 90000 (Or.inr (by decide))).2.1 "X" 0 ⟨0, 0⟩ [] "metric",
   (out_of_range_offset_fallback 90000 (Or.inr (by decide))).2.2 "metric" []⟩

/- ============================ Orchestrator lemmas ============================ -/

/-- Identity completion order: the tasks come back in submission order. -/
theorem permute_range {α : Type} : ∀ l : List α, permute l (List.range l.length) = l := by
  intro l
  induction l with
  | nil => rfl
  | cons a t ih =>
    have ih' : List.filterMap (fun i => t[i]?) (List.range t.length) = t := ih
    show permute (a :: t) (List.range (t.length + 1)) = a :: t
    rw [permute, List.range_succ_eq_map]
    simp only [List.filterMap_cons, List.getElem?_cons_zero, List.filterMap_map]
    have hfun : ((fun i => (a :: t)[i]?) ∘ Nat.succ) = fun i => t[i]? := by
      funext i
      simp [List.getElem?_cons_succ]
    rw [hfun, ih']

/-- Any permuted completion order rearranges exactly the task results. -/
theorem permute_perm {α : Type} {l : List α} {sched : List ℕ}
    (h : sched.Perm (List.range l.length)) : (permute l sched).Perm l := by
  have hp : (permute l sched).Perm (permute l (List.range l.length)) :=
    h.filterMap (fun i => l[i]?)
  rw [permute_range] at hp
  exact hp

/-- A collection containing an error collects to an error. -/
theorem collect_results_error_of_mem {ε α : Type} :
    ∀ {l : List (Except ε α)} {e : ε}, Except.error e ∈ l →
      ∃ e', collect_results l = Except.error e' := by
  intro l
  induction l with
  | nil => intro e h; cases h
  | cons x xs ih =>
    intro e h
    match x with
    | .error f => exact ⟨f, rfl⟩
    | .ok a =>
      have hx : Except.error e ∈ xs := by
        rcases List.mem_cons.mp h with h' | h'
        · cases h'
        · exact h'
      obtain ⟨e', he⟩ := ih hx
      exact ⟨e', by simp [collect_results, he, Except.map]⟩

/-- A successful collection is exactly the list of successes. -/
theorem collect_results_ok_eq {ε α : Type} :
    ∀ {l : List (Except ε α)} {v : List α},
      collect_results l = Except.ok v → l = v.map Except.ok := by
  intro l
  induction l with
  | nil =>
    intro v h
    unfold collect_results at h
    injection h with h
    rw [← h]
    rfl
  | cons x xs ih =>
    intro v h
    match x with
    | .error f =>
      unfold collect_results at h
      cases h
    | .ok a =>
      unfold collect_results at h
      cases hc : collect_results xs with
      | error e => rw [hc] at h; simp [Except.map] at h
      | ok w =>
        rw [hc] at h
        simp only [Except.map] at h
        injection h with h
        rw [← h, List.map_cons, ih hc]

/-- C9: if any single location's fetch fails (in either pass), the whole
run returns an error: no report, partial or complete, is emitted. -/
theorem orchestrator_all_or_nothing :
    ∀ (cities : List String) (units : String)
      (fetchCur : String → Except String CurrentResp)
      (fetchFc : String → Except String ForecastResp)
      (schedCur schedFc : List ℕ) (now : String) (c : String),
      schedCur.Perm (List.range cities.length) →
      schedFc.Perm (List.range cities.length) →
      c ∈ cities →
      ((∃ e, fetchCur c = .error e) ∨ (∃ e, fetchFc c = .error e)) →
      ∃ e', run_orchestrator cities units fetchCur fetchFc schedCur schedFc now
              = Except.error e' := by
  intro cities units fCur fFc sc sf now c hsc hsf hc hfail
  rcases hfail with ⟨e, he⟩ | ⟨e, he⟩
  · have h1 : current_task units fCur c = Except.error e := by
      simp [current_task, he, Except.map]
    have h2 : Except.error e ∈ cities.map (current_task units fCur) := by
      rw [← h1]
      exact List.mem_map_of_mem _ hc
    have hmem : Except.error e ∈ permute (cities.map (current_task units fCur)) sc :=
      ((permute_perm (by simpa using hsc)).mem_iff).mpr h2
    obtain ⟨e', he'⟩ := collect_results_error_of_mem hmem
    exact ⟨e', by simp only [run_orchestrator, he']⟩
  · have h1 : forecast_task units fFc c = Except.error e := by
      simp [forecast_task, he, Except.map]
    have h2 : Except.error e ∈ cities.map (forecast_task units fFc) := by
      rw [← h1]
      exact List.mem_map_of_mem _ hc
    have hmem : Except.error e ∈ permute (cities.map (forecast_task units fFc)) sf :=
      ((permute_perm (by simpa using hsf)).mem_iff).mpr h2
    obtain ⟨e', he'⟩ := collect_results_error_of_mem hmem
    cases hcc : collect_results (permute (cities.map (current_task units fCur)) sc) with
    | error e0 => exact ⟨e0, by simp only [run_orchestrator, hcc]⟩
    | ok cur => exact ⟨e', by simp only [run_orchestrator, hcc, he']⟩

/-- Witness for C9: city "B" of ["A", "B"] fails its current fetch, and the
whole run errors even though "A" succeeded. -/
theorem orchestrator_all_or_nothing_witness :
    ([0, 1] : List ℕ).Perm (List.range 2)
    ∧ ("B" : String) ∈ ["A", "B"]
    ∧ demo_fetch_cur_fail "B" = .error "boom"
    ∧ ∃ e', run_orchestrator ["A", "B"] "metric" demo_fetch_cur_fail (fun _ => .ok demo_fc)
        [0, 1] [0, 1] "t" = Except.error e' :=
  ⟨by decide, by decide, by decide,
   orchestrator_all_or_nothing ["A", "B"] "metric" demo_fetch_cur_fail (fun _ => .ok demo_fc)
     [0, 1] [0, 1] "t" "B" (by decide) (by decide) (by decide)
     (Or.inl ⟨"boom", by decide⟩)⟩

/-- C1 counterexample: with two locations and the (window-8 realizable)
completion order that finishes "B" before "A", the emitted current list is
["B", "A"] while the configured location order is ["A", "B"]: output order
follows completion order, not configured order. -/
theorem orchestrator_output_completion_order :
    valid_completion 8 2 [1, 0]
    ∧ (run_orchestrator ["A", "B"] "metric" (fun _ => .ok demo_cur) (fun _ => .ok demo_fc)
        [1, 0] [0, 1] "t").map (fun o => o.current.map (fun c => c.city)) = .ok ["B", "A"]
    ∧ ["A", "B"].map label_from_query = ["A", "B"]
    ∧ (["B", "A"] : List String) ≠ ["A", "B"] :=
  ⟨by decide, by decide, by decide, by decide⟩

/-- C1 amended: for every configured location list, every assignment of
fetch outcomes and every realizable completion order, a successful run
emits exactly one result per configured location — each carrying the data
of its own location — as a permutation (in completion order) of the
configured-order results. -/
theorem orchestrator_output_perm_of_completion :
    ∀ (cities : List String) (units : String)
      (fetchCur : String → Except String CurrentResp)
      (fetchFc : String → Except String ForecastResp)
      (schedCur schedFc : List ℕ) (now : String) (out : Output),
      valid_completion 8 cities.length schedCur →
      valid_completion 8 cities.length schedFc →
      run_orchestrator cities units fetchCur fetchFc schedCur schedFc now = .ok out →
      (out.current.map (fun r => (Except.ok r : Except String CurrentOut))).Perm
          (cities.map (current_task units fetchCur))
      ∧ (out.forecasts.map (fun r => (Except.ok r : Except String CityForecastOut))).Perm
          (cities.map (forecast_task units fetchFc))
      ∧ out.generated_at_utc = now := by
  intro cities units fCur fFc sc sf now out hsc hsf hrun
  unfold run_orchestrator at hrun
  cases hcc : collect_results (permute (cities.map (current_task units fCur)) sc) with
  | error e => rw [hcc] at hrun; cases hrun
  | ok cur =>
    rw [hcc] at hrun
    cases hff : collect_results (permute (cities.map (forecast_task units fFc)) sf) with
    | error e => rw [hff] at hrun; cases hrun
    | ok fcs =>
      rw [hff] at hrun
      injection hrun with hrun
      have hcur : permute (cities.map (current_task units fCur)) sc = cur.map Except.ok :=
        collect_results_ok_eq hcc
      have hfcs : permute (cities.map (forecast_task units fFc)) sf = fcs.map Except.ok :=
        collect_results_ok_eq hff
      have hp1 : (cur.map (fun r => (Except.ok r : Except String CurrentOut))).Perm
          (cities.map (current_task units fCur)) := by
        rw [← hcur]
        exact permute_perm (by simpa using hsc.1)
      have hp2 : (fcs.map (fun r => (Except.ok r : Except String CityForecastOut))).Perm
          (cities.map (forecast_task units fFc)) := by
        rw [← hfcs]
        exact permute_perm (by simpa using hsf.1)
      rw [← hrun]
      exact ⟨hp1, hp2, rfl⟩

/-- Witness for the amended C1 on a one-city all-success run. -/
theorem orchestrator_output_perm_of_completion_witness :
    valid_completion 8 1 [0]
    ∧ run_orchestrator ["A"] "metric" (fun _ => .ok demo_cur) (fun _ => .ok demo_fc)
        [0] [0] "t" = .ok demo_out
    ∧ (demo_out.current.map (fun r => (Except.ok r : Except String CurrentOut))).Perm
        (["A"].map (current_task "metric" (fun _ => .ok demo_cur))) :=
  ⟨by decide, by decide,
   (orchestrator_output_perm_of_completion ["A"] "metric" (fun _ => .ok demo_cur)
      (fun _ => .ok demo_fc) [0] [0] "t" demo_out (by decide) (by decide) (by decide)).1⟩

/- ============================ Aggregation lemmas ============================ -/

/-- Key list of an `upsert`: unchanged when the key exists, appended otherwise. -/
theorem upsert_keys (k : Int) (v : Sample) :
    ∀ g : List (Int × List Sample),
      (upsert k v g).map Prod.fst = addKey (g.map Prod.fst) k := by
  intro g
  induction g with
  | nil => simp [upsert, addKey]
  | cons p rest ih =>
    obtain ⟨k', vs⟩ := p
    by_cases h : k = k'
    · subst h
      simp [upsert, addKey]
    · by_cases hm : k ∈ rest.map Prod.fst
      · simp [upsert, addKey, h, hm, ih]
      · simp [upsert, addKey, h, hm, ih]

/-- Folding `upsert` over entries folds `addKey` over their day keys. -/
theorem foldl_upsert_keys (offset : Int) (units : String) :
    ∀ (entries : List ForecastEntry) (acc : List (Int × List Sample)),
      ((entries.foldl
        (fun a e => upsert (day_key e.dt offset) (entry_sample units e) a) acc).map Prod.fst)
        = (entries.map (fun e => day_key e.dt offset)).foldl addKey (acc.map Prod.fst) := by
  intro entries
  induction entries with
  | nil => intro acc; rfl
  | cons e es ih =>
    intro acc
    simp only [List.foldl_cons, List.map_cons]
    rw [ih, upsert_keys]

/-- `addKey` preserves distinctness of the key list. -/
theorem addKey_nodup {α : Type} [DecidableEq α] {ks : List α} (h : ks.Nodup) (k : α) :
    (addKey ks k).Nodup := by
  unfold addKey
  by_cases hk : k ∈ ks
  · rw [if_pos hk]; exact h
  · rw [if_neg hk]; simp [List.nodup_append, h, hk]

/-- A key fold starting from a distinct key list stays distinct. -/
theorem foldl_addKey_nodup {α : Type} [DecidableEq α] :
    ∀ (l ks : List α), ks.Nodup → (l.foldl addKey ks).Nodup := by
  intro l
  induction l with
  | nil => intro ks h; exact h
  | cons a t ih => intro ks h; exact ih _ (addKey_nodup h a)

/-- `addKey` inserts the key into the key set. -/
theorem addKey_toFinset {α : Type} [DecidableEq α] (ks : List α) (k : α) :
    (addKey ks k).toFinset = insert k ks.toFinset := by
  unfold addKey
  by_cases hk : k ∈ ks
  · rw [if_pos hk, Finset.insert_eq_self.mpr (List.mem_toFinset.mpr hk)]
  · rw [if_neg hk]
    ext x
    simp [List.toFinset_append, or_comm]

/-- The key set after a key fold is the union of start keys and folded keys. -/
theorem foldl_addKey_toFinset {α : Type} [DecidableEq α] :
    ∀ (l ks : List α), (l.foldl addKey ks).toFinset = ks.toFinset ∪ l.toFinset := by
  intro l
  induction l with
  | nil => intro ks; simp
  | cons a t ih =>
    intro ks
    simp only [List.foldl_cons]
    rw [ih, addKey_toFinset, List.toFinset_cons]
    ext x
    simp

/-- Membership in a key fold. -/
theorem mem_foldl_addKey {α : Type} [DecidableEq α] :
    ∀ (l ks : List α) (x : α), x ∈ l.foldl addKey ks ↔ x ∈ ks ∨ x ∈ l := by
  intro l
  induction l with
  | nil => intro ks x; simp
  | cons a t ih =>
    intro ks x
    simp only [List.foldl_cons]
    rw [ih]
    unfold addKey
    by_cases hk : a ∈ ks
    · rw [if_pos hk]
      simp only [List.mem_cons]
      constructor
      · rintro (hx | hx)
        · exact Or.inl hx
        · exact Or.inr (Or.inr hx)
      · rintro (hx | hx | hx)
        · exact Or.inl hx
        · exact Or.inl (hx ▸ hk)
        · exact Or.inr hx
    · rw [if_neg hk]
      simp only [List.mem_append, List.mem_singleton, List.mem_cons]
      tauto

/-- The grouped day keys are the `addKey` fold of the entry day keys. -/
theorem group_keys (offset : Int) (units : String) (entries : List ForecastEntry) :
    (group_entries offset units entries).map Prod.fst
      = (entries.map (fun e => day_key e.dt offset)).foldl addKey [] := by
  unfold group_entries
  rw [foldl_upsert_keys]
  rfl

/-- The grouped day keys are pairwise distinct. -/
theorem group_keys_nodup (offset : Int) (units : String) (entries : List ForecastEntry) :
    ((group_entries offset units entries).map Prod.fst).Nodup := by
  rw [group_keys]
  exact foldl_addKey_nodup _ _ (by simp)

/-- The number of groups equals the number of distinct local dates. -/
theorem group_length (offset : Int) (units : String) (entries : List ForecastEntry) :
    (group_entries offset units entries).length = distinct_days offset entries := by
  have h1 : (group_entries offset units entries).length
      = ((group_entries offset units entries).map Prod.fst).length :=
    (List.length_map _ _).symm
  rw [h1, ← List.toFinset_card_of_nodup (group_keys_nodup offset units entries), group_keys,
    foldl_addKey_toFinset]
  simp [distinct_days]

/-- C2: the aggregator returns exactly `min(distinct local days, 5)` day
summaries — never more than 5 — and an empty sample list yields an empty
summary list without error. -/
theorem aggregator_length_min_distinct_five :
    ∀ (units : String) (tz : Int) (entries : List ForecastEntry),
      (summarize_forecast units ⟨⟨tz⟩, entries⟩).length
          = min (distinct_days (resolve_offset tz) entries) 5
      ∧ (summarize_forecast units ⟨⟨tz⟩, entries⟩).length ≤ 5
      ∧ summarize_forecast units ⟨⟨tz⟩, []⟩ = [] := by
  intro units tz entries
  have hlen : (summarize_forecast units ⟨⟨tz⟩, entries⟩).length
      = min (distinct_days (resolve_offset tz) entries) 5 := by
    show (((List.insertionSort day_le
          (group_entries (resolve_offset tz) units entries)).take 5).map
        (fun p => summarize_day p.1 p.2)).length
      = min (distinct_days (resolve_offset tz) entries) 5
    rw [List.length_map, List.length_take,
      (List.perm_insertionSort day_le (group_entries (resolve_offset tz) units entries)).length_eq,
      group_length]
    exact Nat.min_comm _ _
  exact ⟨hlen, by rw [hlen]; exact Nat.min_le_right _ _, rfl⟩

/-- The min fold is bounded by its seed. -/
theorem min_fold_le (rest : List Sample) :
    ∀ t : ℚ, rest.foldl (fun mn p => min mn p.1) t ≤ t := by
  induction rest with
  | nil => intro t; exact le_refl t
  | cons p ps ih => intro t; exact le_trans (ih (min t p.1)) (min_le_left _ _)

/-- The max fold dominates its seed. -/
theorem max_fold_ge (rest : List Sample) :
    ∀ t : ℚ, t ≤ rest.foldl (fun mx p => max mx p.1) t := by
  induction rest with
  | nil => intro t; exact le_refl t
  | cons p ps ih => intro t; exact le_trans (le_max_left _ _) (ih (max t p.1))

/-- On a nonempty sample list the folded minimum is at most the folded maximum. -/
theorem min_temp_le_max_temp {samples : List Sample} (h : samples ≠ []) :
    min_temp samples ≤ max_temp samples := by
  cases samples with
  | nil => exact absurd rfl h
  | cons p rest =>
    obtain ⟨t, c⟩ := p
    simp only [min_temp, max_temp]
    exact le_trans (min_fold_le rest t) (max_fold_ge rest t)

/-- `upsert` never creates an empty sample group. -/
theorem upsert_snd_ne_nil {k : Int} {v : Sample} :
    ∀ g, (∀ p ∈ g, p.2 ≠ ([] : List Sample)) → ∀ p ∈ upsert k v g, p.2 ≠ [] := by
  intro g
  induction g with
  | nil =>
    intro _ p hp
    unfold upsert at hp
    rcases List.mem_singleton.mp hp with rfl
    simp
  | cons q rest ih =>
    intro hall p hp
    obtain ⟨k', vs⟩ := q
    unfold upsert at hp
    by_cases h : k = k'
    · rw [if_pos h] at hp
      rcases List.mem_cons.mp hp with rfl | hmem
      · simp
      · exact hall _ (List.mem_cons_of_mem _ hmem)
    · rw [if_neg h] at hp
      rcases List.mem_cons.mp hp with rfl | hmem
      · exact hall _ (List.mem_cons_self _ _)
      · exact ih (fun p hp => hall p (List.mem_cons_of_mem _ hp)) _ hmem

/-- Every group produced by the grouping loop has at least one sample. -/
theorem group_snd_ne_nil (offset : Int) (units : String) :
    ∀ (entries : List ForecastEntry) (acc : List (Int × List Sample)),
      (∀ p ∈ acc, p.2 ≠ ([] : List Sample)) →
      ∀ p ∈ entries.foldl
          (fun a e => upsert (day_key e.dt offset) (entry_sample units e) a) acc,
        p.2 ≠ [] := by
  intro entries
  induction entries with
  | nil => intro acc h; exact h
  | cons e es ih =>
    intro acc h
    exact ih _ (upsert_snd_ne_nil _ h)

/-- Every group of `group_entries` has at least one sample. -/
theorem group_entries_snd_ne_nil (offset : Int) (units : String)
    (entries : List ForecastEntry) :
    ∀ p ∈ group_entries offset units entries, p.2 ≠ [] :=
  group_snd_ne_nil offset units entries [] (fun p hp => absurd hp (List.not_mem_nil p))

/-- The sorted day groups are strictly increasing in their day keys. -/
theorem days_sorted_pairwise_lt (offset : Int) (units : String)
    (entries : List ForecastEntry) :
    List.Pairwise (fun a b : Int × List Sample => a.1 < b.1)
      (days_sorted offset units entries) := by
  have hsorted : List.Pairwise day_le (days_sorted offset units entries) :=
    List.sorted_insertionSort day_le (group_entries offset units entries)
  have hperm : (days_sorted offset units entries).Perm (group_entries offset units entries) :=
    List.perm_insertionSort day_le (group_entries offset units entries)
  have hnodup : ((days_sorted offset units entries).map Prod.fst).Nodup :=
    ((hperm.map Prod.fst).nodup_iff).mpr (group_keys_nodup offset units entries)
  have hne : List.Pairwise (fun a b : Int × List Sample => a.1 ≠ b.1)
      (days_sorted offset units entries) :=
    List.pairwise_map.mp hnodup
  exact (hsorted.and hne).imp (fun h => lt_of_le_of_ne h.1 h.2)

/-- C3: for a nonempty sample set, every emitted day summary satisfies
`min_c ≤ max_c`, and the emitted days are sorted by strictly increasing
calendar date with no duplicate dates (their date strings being the
renderings of those strictly increasing day numbers). -/
theorem aggregator_sorted_min_le_max :
    ∀ (units : String) (tz : Int) (entries : List ForecastEntry), entries ≠ [] →
      List.Pairwise (· < ·) (out_day_keys units tz entries)
      ∧ (∀ d ∈ summarize_forecast units ⟨⟨tz⟩, entries⟩, d.min_c ≤ d.max_c)
      ∧ (summarize_forecast units ⟨⟨tz⟩, entries⟩).map (fun d => d.date)
          = (out_day_keys units tz entries).map format_date := by
  intro units tz entries hne
  refine ⟨?_, ?_, ?_⟩
  · exact List.pairwise_map.mpr
      ((days_sorted_pairwise_lt (resolve_offset tz) units entries).sublist
        (List.take_sublist 5 _))
  · intro d hd
    have hd' : d ∈ ((days_sorted (resolve_offset tz) units entries).take 5).map
        (fun p => summarize_day p.1 p.2) := hd
    obtain ⟨p, hp, rfl⟩ := List.mem_map.mp hd'
    have hp' : p ∈ days_sorted (resolve_offset tz) units entries := List.mem_of_mem_take hp
    have hp'' : p ∈ group_entries (resolve_offset tz) units entries :=
      (List.perm_insertionSort day_le _).subset hp'
    have hsnd : p.2 ≠ [] := group_entries_snd_ne_nil _ _ _ p hp''
    simpa [summarize_day] using min_temp_le_max_temp hsnd
  · show (((days_sorted (resolve_offset tz) units entries).take 5).map
        (fun p => summarize_day p.1 p.2)).map (fun d => d.date)
      = (((days_sorted (resolve_offset tz) units entries).take 5).map Prod.fst).map format_date
    rw [List.map_map, List.map_map]
    rfl

/-- Witness for C3 on a one-entry sample set. -/
theorem aggregator_sorted_min_le_max_witness :
    ([⟨0, ⟨5, 0⟩, []⟩] : List ForecastEntry) ≠ []
    ∧ List.Pairwise (· < ·) (out_day_keys "metric" 0 [⟨0, ⟨5, 0⟩, []⟩])
    ∧ (∀ d ∈ summarize_forecast "metric" ⟨⟨0⟩, [⟨0, ⟨5, 0⟩, []⟩]⟩, d.min_c ≤ d.max_c)
    ∧ (summarize_forecast "metric" ⟨⟨0⟩, [⟨0, ⟨5, 0⟩, []⟩]⟩).map (fun d => d.date)
        = (out_day_keys "metric" 0 [⟨0, ⟨5, 0⟩, []⟩]).map format_date :=
  ⟨by decide,
   (aggregator_sorted_min_le_max "metric" 0 [⟨0, ⟨5, 0⟩, []⟩] (by decide)).1,
   (aggregator_sorted_min_le_max "metric" 0 [⟨0, ⟨5, 0⟩, []⟩] (by decide)).2.1,
   (aggregator_sorted_min_le_max "metric" 0 [⟨0, ⟨5, 0⟩, []⟩] (by decide)).2.2⟩

/-- Bumping a label increments exactly that label's count. -/
theorem bump_lookup_self (c : String) :
    ∀ acc, lookup_count c (bump c acc) = lookup_count c acc + 1 := by
  intro acc
  induction acc with
  | nil => simp [bump, lookup_count]
  | cons q rest ih =>
    obtain ⟨a, n⟩ := q
    by_cases h : c = a
    · subst h
      simp [bump, lookup_count]
    · simp [bump, lookup_count, h, ih]

/-- Bumping one label leaves every other label's count unchanged. -/
theorem bump_lookup_other {c c' : String} (h : c ≠ c') :
    ∀ acc, lookup_count c (bump c' acc) = lookup_count c acc := by
  intro acc
  induction acc with
  | nil => simp [bump, lookup_count, h]
  | cons q rest ih =>
    obtain ⟨a, n⟩ := q
    by_cases h1 : c' = a
    · subst h1
      simp [bump, lookup_count, h, ih]
    · by_cases h2 : c = a
      · subst h2
        simp [bump, lookup_count, h1, ih]
      · simp [bump, lookup_count, h1, h2, ih]

/-- The counting fold adds each label's occurrence count to its start count. -/
theorem counts_lookup (c : String) :
    ∀ (samples : List Sample) (acc : List (String × ℕ)),
      lookup_count c (samples.foldl (fun a p => bump p.2 a) acc)
        = lookup_count c acc + occ samples c := by
  intro samples
  induction samples with
  | nil => intro acc; simp [occ]
  | cons s ss ih =>
    intro acc
    simp only [List.foldl_cons]
    rw [ih]
    by_cases h : c = s.2
    · subst h
      rw [bump_lookup_self]
      simp [occ, List.countP_cons]
      omega
    · rw [bump_lookup_other h]
      have hb : (s.2 == c) = false := by
        simp [Ne.symm h]
      simp [occ, List.countP_cons, hb]

/-- In the final counts, each label's count is its occurrence count. -/
theorem lookup_counts_of (samples : List Sample) (c : String) :
    lookup_count c (counts_of samples) = occ samples c := by
  have h := counts_lookup c samples []
  simpa [counts_of, lookup_count] using h

/-- Key list of a `bump`: unchanged when present, appended otherwise. -/
theorem bump_keys (c : String) :
    ∀ acc, (bump c acc).map Prod.fst = addKey (acc.map Prod.fst) c := by
  intro acc
  induction acc with
  | nil => simp [bump, addKey]
  | cons q rest ih =>
    obtain ⟨a, n⟩ := q
    by_cases h : c = a
    · subst h
      simp [bump, addKey]
    · by_cases hm : c ∈ rest.map Prod.fst
      · simp [bump, addKey, h, hm, ih]
      · simp [bump, addKey, h, hm, ih]

/-- Folding `bump` over samples folds `addKey` over their labels. -/
theorem foldl_bump_keys :
    ∀ (samples : List Sample) (acc : List (String × ℕ)),
      ((samples.foldl (fun a p => bump p.2 a) acc).map Prod.fst)
        = (samples.map Prod.snd).foldl addKey (acc.map Prod.fst) := by
  intro samples
  induction samples with
  | nil => intro acc; rfl
  | cons s ss ih =>
    intro acc
    simp only [List.foldl_cons, List.map_cons]
    rw [ih, bump_keys]

/-- The counted labels are pairwise distinct. -/
theorem counts_keys_nodup (samples : List Sample) :
    ((counts_of samples).map Prod.fst).Nodup := by
  unfold counts_of
  rw [foldl_bump_keys]
  exact foldl_addKey_nodup _ _ (by simp)

/-- A label is counted exactly when it occurs among the samples. -/
theorem mem_counts_keys (samples : List Sample) (c : String) :
    c ∈ (counts_of samples).map Prod.fst ↔ c ∈ samples.map Prod.snd := by
  unfold counts_of
  rw [foldl_bump_keys, mem_foldl_addKey]
  simp

/-- With distinct keys, each pair's count is the lookup of its key. -/
theorem lookup_eq_of_mem :
    ∀ g : List (String × ℕ), (g.map Prod.fst).Nodup →
      ∀ p ∈ g, lookup_count p.1 g = p.2 := by
  intro g
  induction g with
  | nil => intro _ p hp; cases hp
  | cons q rest ih =>
    intro hnd p hp
    obtain ⟨a, n⟩ := q
    obtain ⟨ha, hnd'⟩ := List.nodup_cons.mp hnd
    have ha' : a ∉ rest.map Prod.fst := by simpa using ha
    rcases List.mem_cons.mp hp with rfl | hmem
    · simp [lookup_count]
    · have hne : p.1 ≠ a := by
        intro hh
        exact ha' (hh ▸ List.mem_map_of_mem Prod.fst hmem)
      simp only [lookup_count, if_neg hne]
      exact ih hnd' p hmem

/-- Every counted label appears in the counts with its lookup value. -/
theorem mem_of_lookup (c : String) :
    ∀ g : List (String × ℕ), c ∈ g.map Prod.fst → (c, lookup_count c g) ∈ g := by
  intro g
  induction g with
  | nil => intro h; simp at h
  | cons q rest ih =>
    intro h
    obtain ⟨a, n⟩ := q
    by_cases hc : c = a
    · subst hc
      simp [lookup_count]
    · have h' : c ∈ rest.map Prod.fst := by
        simp only [List.map_cons, List.mem_cons] at h
        rcases h with hc' | h'
        · exact absurd hc' hc
        · exact h'
      simp only [lookup_count, if_neg hc]
      exact List.mem_cons_of_mem _ (ih h')

/-- An uncounted label has lookup 0. -/
theorem lookup_eq_zero_of_not_mem (c : String) :
    ∀ g : List (String × ℕ), c ∉ g.map Prod.fst → lookup_count c g = 0 := by
  intro g
  induction g with
  | nil => intro _; rfl
  | cons q rest ih =>
    intro h
    obtain ⟨a, n⟩ := q
    simp only [List.map_cons, List.mem_cons] at h
    push_neg at h
    simp only [lookup_count, if_neg h.1]
    exact ih h.2

/-- The `max_by_key` fold returns an element of the scanned list. -/
theorem max_sel_mem :
    ∀ (l : List (String × ℕ)) (p : String × ℕ), max_sel p l ∈ p :: l := by
  intro l
  induction l with
  | nil => intro p; simp [max_sel]
  | cons q t ih =>
    intro p
    have step : max_sel p (q :: t) = max_sel (if p.2 ≤ q.2 then q else p) t := rfl
    rw [step]
    rcases List.mem_cons.mp (ih (if p.2 ≤ q.2 then q else p)) with h | h
    · rw [h]
      by_cases hle : p.2 ≤ q.2
      · rw [if_pos hle]
        exact List.mem_cons_of_mem _ (List.mem_cons_self _ _)
      · rw [if_neg hle]
        exact List.mem_cons_self _ _
    · exact List.mem_cons_of_mem _ (List.mem_cons_of_mem _ h)

/-- The `max_by_key` fold dominates every scanned count. -/
theorem max_sel_ge :
    ∀ (l : List (String × ℕ)) (p : String × ℕ), ∀ q ∈ p :: l, q.2 ≤ (max_sel p l).2 := by
  intro l
  induction l with
  | nil =>
    intro p q hq
    rcases List.mem_singleton.mp hq with rfl
    exact le_refl _
  | cons r t ih =>
    intro p q hq
    have step : max_sel p (r :: t) = max_sel (if p.2 ≤ r.2 then r else p) t := rfl
    rw [step]
    have hp' : p.2 ≤ (if p.2 ≤ r.2 then r else p).2 ∧ r.2 ≤ (if p.2 ≤ r.2 then r else p).2 := by
      by_cases h : p.2 ≤ r.2
      · rw [if_pos h]; exact ⟨h, le_refl _⟩
      · rw [if_neg h]; exact ⟨le_refl _, le_of_not_le h⟩
    have hhead := ih (if p.2 ≤ r.2 then r else p) _ (List.mem_cons_self _ _)
    rcases List.mem_cons.mp hq with rfl | hq'
    · exact le_trans hp'.1 hhead
    rcases List.mem_cons.mp hq' with rfl | hq''
    · exact le_trans hp'.2 hhead
    · exact ih _ q (List.mem_cons_of_mem _ hq'')

/-- C4: in every emitted day summary the condition label is one of that
day's sample labels and attains the highest occurrence count among them
(the tie-break being unspecified). -/
theorem aggregator_dominant_condition_max :
    ∀ (units : String) (tz : Int) (entries : List ForecastEntry),
      ∀ p ∈ (days_sorted (resolve_offset tz) units entries).take 5,
        (summarize_day p.1 p.2).condition ∈ p.2.map Prod.snd
        ∧ ∀ c, occ p.2 c ≤ occ p.2 ((summarize_day p.1 p.2).condition) := by
  intro units tz entries p hp
  have hp'' : p ∈ group_entries (resolve_offset tz) units entries :=
    (List.perm_insertionSort day_le _).subset (List.mem_of_mem_take hp)
  have hsnd : p.2 ≠ [] := group_entries_snd_ne_nil _ _ _ p hp''
  obtain ⟨s, ss, hs⟩ : ∃ s ss, p.2 = s :: ss := by
    cases hsample : p.2 with
    | nil => exact absurd hsample hsnd
    | cons a l => exact ⟨a, l, rfl⟩
  have hkey : s.2 ∈ (counts_of p.2).map Prod.fst := by
    rw [mem_counts_keys, hs]
    exact List.mem_map_of_mem _ (List.mem_cons_self _ _)
  obtain ⟨c0, crest, hc⟩ : ∃ c0 crest, counts_of p.2 = c0 :: crest := by
    cases hcc : counts_of p.2 with
    | nil => rw [hcc] at hkey; simp at hkey
    | cons a l => exact ⟨a, l, rfl⟩
  have hdom : (summarize_day p.1 p.2).condition = (max_sel c0 crest).1 := by
    simp [summarize_day, dominant, hc]
  have hMmem : max_sel c0 crest ∈ counts_of p.2 := by
    rw [hc]
    exact max_sel_mem crest c0
  have hMval : (max_sel c0 crest).2 = occ p.2 (max_sel c0 crest).1 := by
    rw [← lookup_counts_of]
    exact (lookup_eq_of_mem _ (counts_keys_nodup p.2) _ hMmem).symm
  constructor
  · rw [hdom]
    exact (mem_counts_keys p.2 _).mp (List.mem_map_of_mem _ hMmem)
  · intro c
    rw [hdom, ← hMval]
    by_cases hcm : c ∈ (counts_of p.2).map Prod.fst
    · have h1 : (c, lookup_count c (counts_of p.2)) ∈ counts_of p.2 := mem_of_lookup c _ hcm
      have h2 := max_sel_ge crest c0 _ (hc ▸ h1)
      rw [← lookup_counts_of, hc]
      simpa using h2
    · rw [← lookup_counts_of, lookup_eq_zero_of_not_mem c _ hcm]
      exact Nat.zero_le _

/-- Witness for C4 on a one-sample day group. -/
theorem aggregator_dominant_condition_max_witness :
    ((0 : Int), [((10 : ℚ), "Clear")])
        ∈ (days_sorted (resolve_offset 0) "metric" [⟨0, ⟨10, 0⟩, [⟨"clear"⟩]⟩]).take 5
    ∧ (summarize_day 0 [((10 : ℚ), "Clear")]).condition ∈ [((10 : ℚ), "Clear")].map Prod.snd
    ∧ occ [((10 : ℚ), "Clear")] "Rain"
        ≤ occ [((10 : ℚ), "Clear")] ((summarize_day 0 [((10 : ℚ), "Clear")]).condition) :=
  ⟨by decide,
   (aggregator_dominant_condition_max "metric" 0 [⟨0, ⟨10, 0⟩, [⟨"clear"⟩]⟩]
      (0, [((10 : ℚ), "Clear")]) (by decide)).1,
   (aggregator_dominant_condition_max "metric" 0 [⟨0, ⟨10, 0⟩, [⟨"clear"⟩]⟩]
      (0, [((10 : ℚ), "Clear")]) (by decide)).2 "Rain"⟩
